import Mathlib

/-!
Verification development for the `install_go` package (download.go).

Go strings are embedded as `List Char`; Go byte slices as `List Nat`.
The pure parts of `getAllGoVersion`, `downloadGoVersion`, `unpack`,
`unpackTar` are translated into executable Lean definitions, and the
surrounding IO (HTTP responses, filesystem state, clock) is made explicit
as environment records threaded through the translated control flow.
-/

namespace InstallGo

/-- Abbreviation for the embedding of a Go string. -/
abbrev LC := List Char

/-- Embedding of a Go byte slice. -/
abbrev Bytes := List Nat

/-- Go `strings.HasPrefix` (and the implicit list-prefix test used below). -/
def startsWithL : LC → LC → Bool
  | [], _ => true
  | _ :: _, [] => false
  | p :: ps, c :: cs => p = c && startsWithL ps cs

/-- Go `strings.Contains`: `pat` occurs contiguously somewhere in `s`. -/
def containsStr (s pat : LC) : Bool :=
  match s with
  | [] => startsWithL pat []
  | _ :: cs => startsWithL pat s || containsStr cs pat

/-- Go `strings.Split(s, sep)` for a one-character separator. -/
def splitOnChar (sep : Char) : LC → List LC
  | [] => [[]]
  | c :: cs =>
    if c = sep then [] :: splitOnChar sep cs
    else
      match splitOnChar sep cs with
      | [] => [[c]]
      | s :: ss => (c :: s) :: ss

/-- Go `strings.SplitN(s, sep, n)` for a one-character separator: at most
`n` pieces, the last piece keeping any further separators. -/
def splitNChar (sep : Char) (n : Nat) (s : LC) : List LC :=
  match n, s with
  | 0, _ => []
  | 1, _ => [s]
  | n + 2, s =>
    match s with
    | [] => [[]]
    | c :: cs =>
      if c = sep then [] :: splitNChar sep (n + 1) cs
      else
        match splitNChar sep (n + 2) cs with
        | [] => [[c]]
        | t :: ts => (c :: t) :: ts

/-- Go `strings.Replace(s, pat, rep, -1)`: replace every non-overlapping
occurrence of `pat` in `s` by `rep`, scanning left to right. -/
def replaceAllA (fuel : Nat) (s pat rep : LC) : LC :=
  match fuel, s with
  | 0, s => s
  | _ + 1, [] => []
  | fuel + 1, c :: cs =>
    if pat ≠ [] ∧ startsWithL pat (c :: cs) = true then
      rep ++ replaceAllA fuel ((c :: cs).drop pat.length) pat rep
    else
      c :: replaceAllA fuel cs pat rep

/-- Go `strings.Replace(s, pat, rep, -1)`: replace every non-overlapping
occurrence of `pat` in `s` by `rep`, scanning left to right. The fuel
`s.length` is always sufficient: each step consumes at least one
character of `s` (`pat` is nonempty whenever a replacement happens). -/
def replaceAll (s pat rep : LC) : LC := replaceAllA s.length s pat rep

/-- Characters treated as whitespace by Go `strings.Fields`
(`unicode.IsSpace`, ASCII subset relevant to the reference listing). -/
def isSpaceC (c : Char) : Bool :=
  c = ' ' || c = '\t' || c = '\n' || c = '\r' || c = Char.ofNat 11 || c = Char.ofNat 12

/-- Go `strings.Fields`: split around runs of whitespace. -/
def fieldsOf (s : LC) : List LC :=
  (splitOnChar ' ' (s.map (fun c => if isSpaceC c then ' ' else c))).filter
    (fun f => f ≠ [])

/-- Strip one trailing carriage return, as `bufio.ScanLines` does. -/
def dropCR (l : LC) : LC :=
  match l.getLast? with
  | some c => if c = '\r' then l.dropLast else l
  | none => l

/-- The sequence of lines produced by a `bufio.Scanner` with `ScanLines`:
split at newlines, no empty token after a trailing newline, and each
line stripped of a trailing `\r`. -/
def linesOf (s : LC) : List LC :=
  let parts := splitOnChar '\n' s
  let parts := match parts.getLast? with
    | some [] => parts.dropLast
    | _ => parts
  parts.map dropCR

/-- ASCII decimal digit test. -/
def isDigitC (c : Char) : Bool := '0' ≤ c && c ≤ '9'

/-- Numeric value of an ASCII digit. -/
def digitVal (c : Char) : Nat := c.toNat - '0'.toNat

/-- Value of a decimal digit string. -/
def digitsVal (s : LC) : Nat := s.foldl (fun acc c => 10 * acc + digitVal c) 0

/-- Go `hasLeadingZeroes` from the semver library: more than one character
and starting with zero. -/
def hasLeadingZeroes (s : LC) : Bool :=
  decide (1 < s.length) && s.headD 'x' = '0'

/-- Go `strconv.ParseUint(s, 10, 64)`: nonempty all-digit string whose
value fits in 64 bits. -/
def parseUint64 (s : LC) : Option Nat :=
  if s ≠ [] && s.all isDigitC && decide (digitsVal s < 2 ^ 64) then
    some (digitsVal s)
  else none

/-- Go `strconv.Atoi` as used on the `Content-Length` header: optional
sign, then a nonempty digit string fitting a 64-bit int. -/
def atoiGo (s : LC) : Option Int :=
  match s with
  | '-' :: rest =>
    if rest ≠ [] && rest.all isDigitC && decide (digitsVal rest ≤ 2 ^ 63) then
      some (-(digitsVal rest : Int))
    else none
  | '+' :: rest =>
    if rest ≠ [] && rest.all isDigitC && decide (digitsVal rest < 2 ^ 63) then
      some (digitsVal rest : Int)
    else none
  | _ =>
    if s ≠ [] && s.all isDigitC && decide (digitsVal s < 2 ^ 63) then
      some (digitsVal s : Int)
    else none

/-- Lowercase hex digit for a value below 16, as produced by `%x`. -/
def hexDigit (n : Nat) : Char :=
  if n < 10 then Char.ofNat ('0'.toNat + n)
  else Char.ofNat ('a'.toNat + (n - 10))

/-- Go `fmt.Sprintf("%x", bytes)`: two lowercase hex digits per byte. -/
def hexString (bs : Bytes) : LC :=
  bs.flatMap (fun b => [hexDigit (b / 16), hexDigit (b % 16)])

/-- First index of a character in a string, Go `strings.IndexRune`. -/
def indexOfC (c : Char) : LC → Option Nat
  | [] => none
  | x :: xs => if x = c then some 0 else (indexOfC c xs).map (· + 1)

/-- Pre-release identifier of the semver library: numeric or alphanumeric. -/
inductive PRId where
  | num (n : Nat)
  | alnum (s : LC)
deriving DecidableEq

/-- The semver library's `Version` value. -/
structure SemVersion where
  major : Nat
  minor : Nat
  patch : Nat
  pre : List PRId
  build : List LC
deriving DecidableEq

/-- The zero `Version{}` left behind when `semver.Make` fails and its error
is discarded (`v, _ := semver.Make(...)`). -/
def zeroVersion : SemVersion := ⟨0, 0, 0, [], []⟩

/-- The semver library's `alphanum` character set (letters, digits, `-`). -/
def isAlnumC (c : Char) : Bool :=
  isDigitC c || ('a' ≤ c && c ≤ 'z') || ('A' ≤ c && c ≤ 'Z') || c = '-'

/-- Validation of one numeric `major`/`minor`/`patch` section: digits only,
no leading zeroes, value below `2^64` (`strconv.ParseUint(s, 10, 64)`). -/
def parseNumSection (s : LC) : Option Nat :=
  if s.all isDigitC then
    if hasLeadingZeroes s then none else parseUint64 s
  else none

/-- The semver library's `NewPRVersion`. -/
def parsePRId (s : LC) : Option PRId :=
  if s = [] then none
  else if s.all isDigitC then
    if hasLeadingZeroes s then none else (parseUint64 s).map .num
  else if s.all isAlnumC then some (.alnum s)
  else none

/-- Validate a list of pre-release identifiers in order (the loop over
`prerelease` parts in the semver library's `Parse`). -/
def parsePRList (f : LC → Option PRId) : List LC → Option (List PRId)
  | [] => some []
  | x :: xs =>
    match f x, parsePRList f xs with
    | some y, some ys => some (y :: ys)
    | _, _ => none

/-- The semver library's `Parse` (= `Make`): split into exactly three
dot-separated parts (the third keeping further dots), strip `+build` and
`-prerelease` from the third part, and validate every piece. -/
def semverParse (s : LC) : Option SemVersion :=
  if s = [] then none
  else
    match splitNChar '.' 3 s with
    | [p0, p1, p2] =>
      match parseNumSection p0, parseNumSection p1 with
      | some major, some minor =>
        let pb : LC × List LC :=
          match indexOfC '+' p2 with
          | some bi => (p2.take bi, splitOnChar '.' (p2.drop (bi + 1)))
          | none => (p2, [])
        let pp : LC × List LC :=
          match indexOfC '-' pb.1 with
          | some pi => (pb.1.take pi, splitOnChar '.' (pb.1.drop (pi + 1)))
          | none => (pb.1, [])
        match parseNumSection pp.1, parsePRList parsePRId pp.2 with
        | some patch, some pre =>
          if pb.2.all (fun b => b ≠ [] && b.all isAlnumC) then
            some ⟨major, minor, patch, pre, pb.2⟩
          else none
        | _, _ => none
      | _, _ => none
    | _ => none

/-- Three-way comparison of naturals as the semver library returns it. -/
def cmpNat (a b : Nat) : Int := if a = b then 0 else if a > b then 1 else -1

/-- Go byte-wise string comparison (ASCII here), three-way. -/
def lexCmpLC : LC → LC → Int
  | [], [] => 0
  | [], _ :: _ => -1
  | _ :: _, [] => 1
  | a :: as, b :: bs =>
    if a.toNat = b.toNat then lexCmpLC as bs
    else if a.toNat > b.toNat then 1 else -1

/-- The semver library's `PRVersion.Compare`: numeric identifiers sort
below alphanumeric ones. -/
def prCmp : PRId → PRId → Int
  | .num _, .alnum _ => -1
  | .alnum _, .num _ => 1
  | .num a, .num b => cmpNat a b
  | .alnum a, .alnum b => lexCmpLC a b

/-- Element-wise comparison of pre-release identifier lists; a strict
prefix sorts first. -/
def preListCmp : List PRId → List PRId → Int
  | [], [] => 0
  | [], _ :: _ => -1
  | _ :: _, [] => 1
  | a :: as, b :: bs => if prCmp a b = 0 then preListCmp as bs else prCmp a b

/-- The semver library's `Version.Compare`: numeric triple first, then the
pre-release rules (no pre-release sorts above any pre-release). -/
def semverCmp (v o : SemVersion) : Int :=
  if v.major ≠ o.major then (if v.major > o.major then 1 else -1)
  else if v.minor ≠ o.minor then (if v.minor > o.minor then 1 else -1)
  else if v.patch ≠ o.patch then (if v.patch > o.patch then 1 else -1)
  else
    match v.pre, o.pre with
    | [], [] => 0
    | [], _ :: _ => 1
    | _ :: _, [] => -1
    | a :: as, b :: bs => preListCmp (a :: as) (b :: bs)

/-- The semver library's `Version.GE`. -/
def semverGE (v o : SemVersion) : Bool := decide (0 ≤ semverCmp v o)

/-- Result of `v, _ := semver.Make(s)`: the parsed version, or the zero
version when parsing fails (the error is discarded by the caller). -/
def parseOrZero (s : LC) : SemVersion := (semverParse s).getD zeroVersion

/-- The comparison closure passed to `sort.SliceStable` in
`getAllGoVersion`: `v1.GE(v2)` on freshly parsed (or zero) versions. -/
def goVersionLess (s1 s2 : LC) : Bool := semverGE (parseOrZero s1) (parseOrZero s2)

/-- The marker `refs/tags/go` that retains a listing line and is stripped
from the tag field. -/
def tagMarker : LC := "refs/tags/go".toList

/-- The literal `"beta"`. -/
def betaStr : LC := ['b', 'e', 't', 'a']

/-- The literal `"rc"`. -/
def rcStr : LC := ['r', 'c']

/-- The normalization switch of `getAllGoVersion`, verbatim from the
`switch len(sections)` statement. -/
def normalizeVersion (version : LC) : LC :=
  let sections := splitOnChar '.' version
  match sections.length with
  | 1 => version ++ ['.', '0', '.', '0']
  | 2 =>
    if containsStr version betaStr then
      replaceAll version betaStr ['.', '0', '-', 'b', 'e', 't', 'a']
    else if containsStr version rcStr then
      replaceAll version rcStr ['.', '0', '-', 'r', 'c']
    else version ++ ['.', '0']
  | 3 =>
    if containsStr version rcStr then
      replaceAll version rcStr ['-', 'r', 'c']
    else if containsStr version betaStr then
      replaceAll version betaStr ['-', 'b', 'e', 't', 'a']
    else version
  | _ => version

/-- The scanning loop of `getAllGoVersion`: keep lines containing
`refs/tags/go` that have exactly two whitespace-separated fields, and
strip the marker from the second field to obtain the raw VersionTag. -/
def scanVersions (doc : LC) : List LC :=
  (linesOf doc).filterMap (fun line =>
    if containsStr line tagMarker then
      let ls := fieldsOf line
      if ls.length = 2 then some (replaceAll (ls.getD 1 []) tagMarker []) else none
    else none)

/-- Swap of two positions of a list; identity when an index is out of
range (the sort below only ever swaps in-range positions). -/
def lswap (l : List α) (i j : Nat) : List α :=
  match l.get? i, l.get? j with
  | some x, some y => (l.set i y).set j x
  | _, _ => l

/-- Net effect of the sort library's `rotate`: the block `[m, b)` is moved
before the block `[a, m)`. Identity outside the valid-index regime, which
the callers below never leave. -/
def rotateSeg (l : List α) (a m b : Nat) : List α :=
  if a ≤ m ∧ m ≤ b ∧ b ≤ l.length then
    l.take a ++ ((l.drop m).take (b - m)) ++ ((l.drop a).take (m - a)) ++ l.drop b
  else l

/-- Inner loop of the sort library's `insertionSort`: bubble the element
at index `j` left while `j > a` and `less(data[j], data[j-1])`. -/
def insInner (less : α → α → Bool) (d : α) (a : Nat) : Nat → List α → List α
  | 0, l => l
  | j + 1, l =>
    if a < j + 1 && less (l.getD (j + 1) d) (l.getD j d) then
      insInner less d a j (lswap l (j + 1) j)
    else l

/-- Outer loop of `insertionSort(data, a, b)`: `i` runs from `a+1` up to
`b`; the fuel `b - (a+1)` counts the remaining iterations. -/
def insOuter (less : α → α → Bool) (d : α) (a b : Nat) : Nat → Nat → List α → List α
  | _, 0, l => l
  | i, fuel + 1, l =>
    if i < b then insOuter less d a b (i + 1) fuel (insInner less d a i l) else l

/-- The sort library's `insertionSort(data, a, b)`. -/
def insSortGo (less : α → α → Bool) (d : α) (a b : Nat) (l : List α) : List α :=
  insOuter less d a b (a + 1) (b - (a + 1)) l

/-- Generic binary-search loop `for i < j { h := (i+j)/2; if pred h then
i = h+1 else j = h }`, fuel `j - i`. -/
def bsearchLoop (pred : Nat → Bool) : Nat → Nat → Nat → Nat
  | i, _, 0 => i
  | i, j, fuel + 1 =>
    if i < j then
      let h := (i + j) / 2
      if pred h then bsearchLoop pred (h + 1) j fuel else bsearchLoop pred i h fuel
    else i

/-- A guarded in-place step `if cond { data = f(data) }`, the shape of the
three conditional mutations at the end of the sort library's `symMerge`. -/
def permStep (c : Prop) [Decidable c] (f : List α → List α) (l : List α) : List α :=
  if c then f l else l

/-- The sort library's `symMerge(data, a, m, b)`: merge the sorted blocks
`[a, m)` and `[m, b)` in place. Fuel `b - a` bounds the recursion depth
(each recursive call works on a strictly shorter span). -/
def symMergeGo (less : α → α → Bool) (d : α) : Nat → Nat → Nat → Nat → List α → List α
  | 0, _, _, _, l => l
  | fuel + 1, a, m, b, l =>
    if m - a = 1 then
      let i := bsearchLoop (fun h => less (l.getD h d) (l.getD a d)) m b (b - m)
      rotateSeg l a (a + 1) i
    else if b - m = 1 then
      let i := bsearchLoop (fun h => !(less (l.getD m d) (l.getD h d))) a m (m - a)
      rotateSeg l i m (m + 1)
    else
      let mid := (a + b) / 2
      let n := mid + m
      let s0 := if m > mid then n - b else a
      let r0 := if m > mid then mid else m
      let p := n - 1
      let start := bsearchLoop (fun c => !(less (l.getD (p - c) d) (l.getD c d))) s0 r0 (r0 - s0)
      let en := n - start
      permStep (mid < en ∧ en < b) (symMergeGo less d fuel mid en b)
        (permStep (a < start ∧ start < mid) (symMergeGo less d fuel a start mid)
          (permStep (start < m ∧ m < en) (fun x => rotateSeg x start m en) l))

/-- First phase of the sort library's `stable`: insertion-sort consecutive
blocks of size `blockSize` (`a` steps by `blockSize`; after the loop the
final partial block `[a, n)` is sorted). -/
def insBlocks (less : α → α → Bool) (d : α) (n blockSize : Nat) : Nat → Nat → List α → List α
  | 0, a, l => insSortGo less d a n l
  | fuel + 1, a, l =>
    if a + blockSize ≤ n then
      insBlocks less d n blockSize fuel (a + blockSize) (insSortGo less d a (a + blockSize) l)
    else insSortGo less d a n l

/-- One merging pass of `stable`: merge adjacent sorted blocks of size
`blockSize` pairwise, then the final partial pair. -/
def mergePass (less : α → α → Bool) (d : α) (n blockSize : Nat) : Nat → Nat → List α → List α
  | 0, _, l => l
  | fuel + 1, a, l =>
    if a + 2 * blockSize ≤ n then
      mergePass less d n blockSize fuel (a + 2 * blockSize)
        (symMergeGo less d (2 * blockSize) a (a + blockSize) (a + 2 * blockSize) l)
    else if a + blockSize < n then
      symMergeGo less d (n - a) a (a + blockSize) n l
    else l

/-- Outer doubling loop of `stable`: merge passes with block size
`20, 40, 80, ...` until the block size reaches `n`. -/
def mergeLoop (less : α → α → Bool) (d : α) (n : Nat) : Nat → Nat → List α → List α
  | 0, _, l => l
  | fuel + 1, bs, l =>
    if bs < n then mergeLoop less d n fuel (2 * bs) (mergePass less d n bs (n + 1) 0 l)
    else l

/-- Go's `sort.SliceStable` algorithm (`stable` with block size 20): the
comparison closure receives element values, as `less(i, j)` in the source
reads `data[i]` and `data[j]` of the current slice. -/
def goSliceStable (less : α → α → Bool) (d : α) (l : List α) : List α :=
  mergeLoop less d l.length (l.length + 1) 20
    (insBlocks less d l.length 20 (l.length + 1) 0 l)

/-- Go map semantics for `tmp[version] = oldVersion` followed by
`tmp[value]` reads: the entry list is in write order, a read returns the
value of the last write to that key (missing keys give the zero string). -/
def mapGetLast (tmp : List (LC × LC)) (k : LC) : LC :=
  match tmp with
  | [] => []
  | (k', v) :: rest =>
    if (rest.map Prod.fst).contains k then mapGetLast rest k
    else if k' = k then v else mapGetLast rest k

/-- The pure tail of `getAllGoVersion` after scanning: build `tmp` and
`sortVersions` (one entry per retained tag, in scan order), stable-sort
the normalized keys with the `GE` comparator, then map every sorted key
back through `tmp`. -/
def processTags (tags : List LC) : List LC :=
  let tmp := tags.map (fun t => (normalizeVersion t, t))
  let sortVersions := tags.map normalizeVersion
  let sorted := goSliceStable goVersionLess [] sortVersions
  sorted.map (mapGetLast tmp)

/-- The pure core of `getAllGoVersion`: from the raw reference-listing
document to the returned version list. -/
def getAllGoVersionPure (doc : LC) : List LC :=
  processTags (scanVersions doc)

/-- Errors `getAllGoVersion` can return, by source site. -/
inductive CatError where
  | network
  | httpStatus (code : Nat)
  | readAllErr
  | cacheWrite
  | cacheRead
deriving DecidableEq

/-- The IO environment `getAllGoVersion` observes: cache-file state at
`cache/VERSION` (existence, age = now minus modification time in
nanoseconds, readable content) and the remote endpoint's behaviour. -/
structure CatEnv where
  cacheExists : Bool
  cacheAgeNs : Int
  cacheContent : Option LC
  remoteStatus : Option Nat
  remoteBody : Option LC
  writeOk : Bool

/-- Observable outcome of one `getAllGoVersion` call: the returned value
or error, whether the remote listing was fetched, and whether the cache
file was overwritten. -/
structure CatOutcome where
  resultErr : Option CatError
  versions : List LC
  fetchedRemote : Bool
  cacheOverwritten : Bool
deriving DecidableEq

/-- The value of `time.Hour * 72` in nanoseconds, the freshness bound compared against
`time.Now().Sub(fi.ModTime())`. -/
def hours72Ns : Int := 72 * 3600 * 1000000000

/-- The `getRemoteVersion` closure: fetch the listing, read the body,
persist it to the cache file; any failure is returned and nothing is
cached. Result: (error, fetched body, cache overwritten). -/
def getRemoteVersion (env : CatEnv) : Option CatError × Option LC × Bool :=
  match env.remoteStatus with
  | none => (some .network, none, false)
  | some st =>
    if st > 299 then (some (.httpStatus st), none, false)
    else
      match env.remoteBody with
      | none => (some .readAllErr, none, false)
      | some b =>
        if env.writeOk then (none, some b, true) else (some .cacheWrite, none, false)

/-- The function `getAllGoVersion` with its IO made explicit: remote fetch when the
cache file is missing, cache read when it is younger than 72 hours,
remote fetch (overwriting the cache) otherwise; the fetched or cached
document then goes through the pure scanning/sorting core. -/
def getAllGoVersionRun (env : CatEnv) : CatOutcome :=
  if env.cacheExists = false then
    match getRemoteVersion env with
    | (some e, _, ow) => ⟨some e, [], true, ow⟩
    | (none, some b, ow) => ⟨none, getAllGoVersionPure b, true, ow⟩
    | (none, none, ow) => ⟨none, [], true, ow⟩
  else if env.cacheAgeNs < hours72Ns then
    match env.cacheContent with
    | none => ⟨some .cacheRead, [], false, false⟩
    | some b => ⟨none, getAllGoVersionPure b, false, false⟩
  else
    match getRemoteVersion env with
    | (some e, _, ow) => ⟨some e, [], true, ow⟩
    | (none, some b, ow) => ⟨none, getAllGoVersionPure b, true, ow⟩
    | (none, none, ow) => ⟨none, [], true, ow⟩

/-- Errors `downloadGoVersion` can return, by source site. -/
inductive DLError where
  | reqError
  | network
  | httpStatus (code : Nat)
  | atoiError
  | openError
  | copyError
  | sidecarNetwork
  | sidecarStatus (code : Nat)
  | sidecarRead
  | checksumMismatch (computed published : LC)
  | unpackError
deriving DecidableEq

/-- The IO environment `downloadGoVersion` observes: request
construction, archive response (status, `Content-Length` header, body
chunks as successive `Read` results, then a possible read error), cache
file creation, sidecar digest response, and the extraction stage. -/
structure DLEnv where
  reqOk : Bool
  respStatus : Option Nat
  contentLength : LC
  openOk : Bool
  bodyChunks : List Bytes
  bodyReadErr : Bool
  sidecarStatus : Option Nat
  sidecarBody : Option LC
  unpackOk : Bool
  prevCache : Option Bytes

/-- State of the three sinks fed by `io.Copy` through `io.MultiWriter`:
the cache file, the SHA-256 accumulator input, and the progress bar. -/
structure CopyState where
  fileBytes : Bytes
  hashBytes : Bytes
  barCount : Nat
deriving DecidableEq

/-- One `Write` of the `io.MultiWriter(targetFile, h, bar)`: the chunk
goes to each sink in order, wholly (each sink accepts every byte). -/
def multiWrite (st : CopyState) (chunk : Bytes) : CopyState :=
  { fileBytes := st.fileBytes ++ chunk
    hashBytes := st.hashBytes ++ chunk
    barCount := st.barCount + chunk.length }

/-- The `io.Copy(w, resp.Body)` loop: every chunk read from the body is
written once, in order, through the multi-writer. -/
def copyChunks (chunks : List Bytes) (st : CopyState) : CopyState :=
  chunks.foldl multiWrite st

/-- Observable outcome of one `downloadGoVersion` call. `cacheFile` is
the content of `cache/downloads/<target>` after the call (none =
absent); `hashedBytes` is what was fed to the digest accumulator;
`destRemoved`/`unpackInvoked` record whether the destination directory
was touched. -/
structure DLOutcome where
  resultErr : Option DLError
  cacheFile : Option Bytes
  hashedBytes : Bytes
  barCount : Nat
  computedSum : LC
  destRemoved : Bool
  unpackInvoked : Bool
deriving DecidableEq

/-- The function `downloadGoVersion` with its IO made explicit, following the source's
early-return chain. `H` is the SHA-256 compression (abstracted: the
digest of the accumulated input bytes). -/
def downloadGoVersionRun (H : Bytes → Bytes) (env : DLEnv) : DLOutcome :=
  if env.reqOk = false then ⟨some .reqError, env.prevCache, [], 0, [], false, false⟩
  else
    match env.respStatus with
    | none => ⟨some .network, env.prevCache, [], 0, [], false, false⟩
    | some status =>
      if status > 299 then ⟨some (.httpStatus status), env.prevCache, [], 0, [], false, false⟩
      else
        match atoiGo env.contentLength with
        | none => ⟨some .atoiError, env.prevCache, [], 0, [], false, false⟩
        | some _size =>
          if env.openOk = false then ⟨some .openError, none, [], 0, [], false, false⟩
          else
            let st := copyChunks env.bodyChunks ⟨[], [], 0⟩
            if env.bodyReadErr then
              ⟨some .copyError, some st.fileBytes, st.hashBytes, st.barCount, [], false, false⟩
            else
              match env.sidecarStatus with
              | none =>
                ⟨some .sidecarNetwork, some st.fileBytes, st.hashBytes, st.barCount, [], false,
                  false⟩
              | some sstatus =>
                if sstatus > 299 then
                  ⟨some (.sidecarStatus sstatus), some st.fileBytes, st.hashBytes, st.barCount,
                    [], false, false⟩
                else
                  match env.sidecarBody with
                  | none =>
                    ⟨some .sidecarRead, some st.fileBytes, st.hashBytes, st.barCount, [], false,
                      false⟩
                  | some shasum =>
                    let sum := hexString (H st.hashBytes)
                    if sum ≠ shasum then
                      ⟨some (.checksumMismatch sum shasum), some st.fileBytes, st.hashBytes,
                        st.barCount, sum, false, false⟩
                    else
                      if env.unpackOk then
                        ⟨none, some st.fileBytes, st.hashBytes, st.barCount, sum, true, true⟩
                      else
                        ⟨some .unpackError, some st.fileBytes, st.hashBytes, st.barCount, sum,
                          true, true⟩

/-- One archive entry as both tar and zip iteration deliver it. -/
structure TarEntry where
  name : LC
  isDir : Bool
  mode : Nat
  content : Bytes
deriving DecidableEq

/-- Filesystem state touched by extraction: directories created via
`MkdirAll` and file writes via `OpenFile`/`io.Copy` (in event order). -/
structure FSState where
  dirs : List LC
  files : List (LC × Nat × Bytes)
deriving DecidableEq

/-- The root-stripping step of `unpack`: drop a leading `go/`. -/
def stripGoRoot (name : LC) : LC :=
  if startsWithL ['g', 'o', '/'] name then name.drop 3 else name

/-- Go `filepath.Join(dest, name)` for a clean `dest` and a clean relative
`name`, the shapes archive entries take: plain concatenation with a
separator, and `Join(dest, "") = dest`. -/
def fpJoin (dest name : LC) : LC :=
  if name = [] then dest else dest ++ "/".toList ++ name

/-- The destination path `unpack` computes for an entry name. -/
def unpackEntryPath (dest name : LC) : LC :=
  fpJoin dest (stripGoRoot name)

/-- Body of `unpack` for one entry: create the directory, or write the
file, at the computed path with the entry's mode. -/
def unpackEntry (dest : LC) (e : TarEntry) (fs : FSState) : FSState :=
  let path := unpackEntryPath dest e.name
  if e.isDir then { fs with dirs := fs.dirs ++ [path] }
  else { fs with files := fs.files ++ [(path, e.mode, e.content)] }

/-- The function `unpackTar`: gzip open (may fail on an unreadable archive), then the
`tar.Reader` loop over the entries until EOF. -/
def unpackTarRun (gzipOk : Bool) (entries : List TarEntry) (dest : LC) (fs : FSState) :
    Option Unit × FSState :=
  if gzipOk then (none, entries.foldl (fun acc e => unpackEntry dest e acc) fs)
  else (some (), fs)

/-- Go `os.RemoveAll(dest)`: remove the destination directory and everything
beneath it. -/
def removeAllFS (dest : LC) (fs : FSState) : FSState :=
  { dirs := fs.dirs.filter (fun d => !(d = dest || startsWithL (dest ++ ['/']) d))
    files := fs.files.filter (fun f => !(f.1 = dest || startsWithL (dest ++ ['/']) f.1)) }

/-- Lines 110-114 of the source: `os.RemoveAll(dest)` followed by the
platform's unpack function (tar shown; the zip loop computes the same
per-entry effects). -/
def removeThenUnpack (gzipOk : Bool) (entries : List TarEntry) (dest : LC) (fs : FSState) :
    Option Unit × FSState :=
  unpackTarRun gzipOk entries dest (removeAllFS dest fs)

/-- A well-formed numeric section as the semver comparator accepts it:
nonempty decimal digits, no leading zeroes, value within `uint64`. -/
def numeralOK (s : LC) : Prop :=
  s ≠ [] ∧ s.all isDigitC = true ∧ hasLeadingZeroes s = false ∧ digitsVal s < 2 ^ 64

instance (s : LC) : Decidable (numeralOK s) := by
  unfold numeralOK
  infer_instance

/-- Concrete reference listing with the three tags of the sorting example. -/
def doc3 : LC := "h refs/tags/go1.2.3\nh refs/tags/go1.10.0\nh refs/tags/go1.2.10\n".toList

/-- Concrete listing whose two raw tags normalize to the same key. -/
def docDup : LC := "h refs/tags/go1.2\nh refs/tags/go1.2.0\n".toList

/-- Concrete listing with two tags whose normalized keys both fail semver
parsing, hence compare equal (both fall back to the zero version). -/
def docTie : LC := "h refs/tags/go1.b\nh refs/tags/go1.c\n".toList

/-- A download environment in which every stage succeeds and the sidecar
digest matches the body (digest abstraction instantiated to identity). -/
def envHappy : DLEnv :=
  { reqOk := true, respStatus := some 200, contentLength := ['3'], openOk := true
    bodyChunks := [[1, 2], [3]], bodyReadErr := false, sidecarStatus := some 200
    sidecarBody := some (hexString [1, 2, 3]), unpackOk := true, prevCache := none }

/-- The same download environment with a sidecar digest that cannot match. -/
def envMismatch : DLEnv :=
  { reqOk := true, respStatus := some 200, contentLength := ['3'], openOk := true
    bodyChunks := [[1, 2], [3]], bodyReadErr := false, sidecarStatus := some 200
    sidecarBody := some ['x'], unpackOk := true, prevCache := none }

/-- A catalog environment whose cache file is exactly 71 hours old. -/
def envCache71 : CatEnv := ⟨true, 255600000000000, some [], some 200, some [], true⟩

/-- A catalog environment whose cache file is exactly 73 hours old. -/
def envCache73 : CatEnv := ⟨true, 262800000000000, some [], some 200, some [], true⟩

/-- A filesystem holding a stale destination directory with one file. -/
def fsStale : FSState := ⟨[['/', 'd']], [(['/', 'd', '/', 'x'], 7, [1])]⟩

end InstallGo

namespace InstallGo

theorem set_getD_self (d : α) : ∀ (l : List α) (i : Nat), l.set i (l.getD i d) = l
  | [], _ => by simp
  | _ :: _, 0 => by simp
  | a :: t, i + 1 => by
    simp only [List.getD_cons_succ, List.set_cons_succ]
    rw [set_getD_self d t i]

theorem perm_set_front (d : α) :
    ∀ (k : Nat) (t : List α) (x : α), k < t.length →
      List.Perm (t.getD k d :: t.set k x) (x :: t)
  | 0, a :: t, x, _ => by
    simp only [List.getD_cons_zero, List.set_cons_zero]
    exact List.Perm.swap x a t
  | k + 1, a :: t, x, h => by
    simp only [List.getD_cons_succ, List.set_cons_succ]
    have ih := perm_set_front d k t x (by simpa using h)
    exact List.Perm.trans (List.Perm.swap a (t.getD k d) (t.set k x))
      (List.Perm.trans (ih.cons a) (List.Perm.swap x a t))

theorem lswap_core (d : α) :
    ∀ (i j : Nat) (l : List α), i < j → j < l.length →
      List.Perm ((l.set i (l.getD j d)).set j (l.getD i d)) l
  | 0, j + 1, a :: t, _, hj => by
    simp only [List.getD_cons_zero, List.getD_cons_succ, List.set_cons_zero,
      List.set_cons_succ]
    exact perm_set_front d j t a (by simpa using hj)
  | i + 1, j + 1, a :: t, hij, hj => by
    simp only [List.getD_cons_succ, List.set_cons_succ]
    exact (lswap_core d i j t (by omega) (by simpa using hj)).cons a

theorem getD_of_get? {l : List α} {i : Nat} {x : α} (h : l.get? i = some x) (d : α) :
    l.getD i d = x := by
  have h' : l[i]? = some x := by
    rw [← List.get?_eq_getElem?]
    exact h
  simp [List.getD, h']

theorem lt_length_of_get? {l : List α} {i : Nat} {x : α} (h : l.get? i = some x) :
    i < l.length := by
  by_contra hc
  rw [List.get?_eq_none.mpr (by omega)] at h
  cases h

theorem lswap_perm (l : List α) (i j : Nat) : List.Perm (lswap l i j) l := by
  unfold lswap
  cases hx : l.get? i with
  | none => exact List.Perm.refl l
  | some x =>
    cases hy : l.get? j with
    | none => exact List.Perm.refl l
    | some y =>
      dsimp only
      have hi : i < l.length := lt_length_of_get? hx
      have hj : j < l.length := lt_length_of_get? hy
      rcases Nat.lt_trichotomy i j with hlt | heq | hgt
      · have := lswap_core x i j l hlt hj
        rwa [getD_of_get? hy, getD_of_get? hx] at this
      · subst heq
        rw [hx] at hy
        cases hy
        have hself : l.set i x = l := by
          have := set_getD_self x l i
          rwa [getD_of_get? hx] at this
        rw [List.set_set, hself]
      · rw [List.set_comm _ _ _ (by omega)]
        have := lswap_core x j i l hgt hi
        rwa [getD_of_get? hx, getD_of_get? hy] at this

theorem rotateSeg_perm (l : List α) (a m b : Nat) : List.Perm (rotateSeg l a m b) l := by
  unfold rotateSeg
  split
  · rename_i hg
    obtain ⟨ham, hmb, hbl⟩ := hg
    have e3 : (l.drop a).drop (m - a) = l.drop m := by
      rw [List.drop_drop]
      congr 1
      omega
    have e5 : (l.drop m).drop (b - m) = l.drop b := by
      rw [List.drop_drop]
      congr 1
      omega
    have hdecomp : l = l.take a ++ ((l.drop a).take (m - a) ++
        ((l.drop m).take (b - m) ++ l.drop b)) := by
      conv_lhs => rw [← List.take_append_drop a l]
      congr 1
      conv_lhs => rw [← List.take_append_drop (m - a) (l.drop a)]
      rw [e3]
      congr 1
      conv_lhs => rw [← List.take_append_drop (b - m) (l.drop m)]
      rw [e5]
    conv_rhs => rw [hdecomp]
    rw [List.append_assoc, List.append_assoc]
    refine List.Perm.append_left (l.take a) ?_
    rw [← List.append_assoc, ← List.append_assoc]
    exact List.Perm.append_right (l.drop b) List.perm_append_comm
  · exact List.Perm.refl l

theorem insInner_perm (less : α → α → Bool) (d : α) (a : Nat) :
    ∀ (j : Nat) (l : List α), List.Perm (insInner less d a j l) l
  | 0, l => List.Perm.refl l
  | j + 1, l => by
    unfold insInner
    split
    · exact (insInner_perm less d a j _).trans (lswap_perm l (j + 1) j)
    · exact List.Perm.refl l

theorem insOuter_perm (less : α → α → Bool) (d : α) (a b : Nat) :
    ∀ (fuel i : Nat) (l : List α), List.Perm (insOuter less d a b i fuel l) l
  | 0, _, l => List.Perm.refl l
  | fuel + 1, i, l => by
    unfold insOuter
    split
    · exact (insOuter_perm less d a b fuel (i + 1) _).trans (insInner_perm less d a i l)
    · exact List.Perm.refl l

theorem insSortGo_perm (less : α → α → Bool) (d : α) (a b : Nat) (l : List α) :
    List.Perm (insSortGo less d a b l) l :=
  insOuter_perm less d a b (b - (a + 1)) (a + 1) l

theorem permStep_perm (c : Prop) [Decidable c] (f : List α → List α)
    (hf : ∀ x : List α, List.Perm (f x) x) (l : List α) :
    List.Perm (permStep c f l) l := by
  unfold permStep
  split
  · exact hf l
  · exact List.Perm.refl l

theorem symMergeGo_perm (less : α → α → Bool) (d : α) :
    ∀ (fuel a m b : Nat) (l : List α), List.Perm (symMergeGo less d fuel a m b l) l
  | 0, _, _, _, l => List.Perm.refl l
  | fuel + 1, a, m, b, l => by
    unfold symMergeGo
    split
    · exact rotateSeg_perm l _ _ _
    · split
      · exact rotateSeg_perm l _ _ _
      · dsimp only
        exact (permStep_perm _ _ (fun x => symMergeGo_perm less d fuel _ _ _ x) _).trans
          ((permStep_perm _ _ (fun x => symMergeGo_perm less d fuel _ _ _ x) _).trans
            (permStep_perm _ _ (fun x => rotateSeg_perm x _ _ _) l))

theorem insBlocks_perm (less : α → α → Bool) (d : α) (n blockSize : Nat) :
    ∀ (fuel a : Nat) (l : List α), List.Perm (insBlocks less d n blockSize fuel a l) l
  | 0, a, l => insSortGo_perm less d a n l
  | fuel + 1, a, l => by
    unfold insBlocks
    split
    · exact (insBlocks_perm less d n blockSize fuel _ _).trans
        (insSortGo_perm less d a (a + blockSize) l)
    · exact insSortGo_perm less d a n l

theorem mergePass_perm (less : α → α → Bool) (d : α) (n blockSize : Nat) :
    ∀ (fuel a : Nat) (l : List α), List.Perm (mergePass less d n blockSize fuel a l) l
  | 0, _, l => List.Perm.refl l
  | fuel + 1, a, l => by
    unfold mergePass
    split
    · exact (mergePass_perm less d n blockSize fuel _ _).trans
        (symMergeGo_perm less d _ _ _ _ l)
    · split
      · exact symMergeGo_perm less d _ _ _ _ l
      · exact List.Perm.refl l

theorem mergeLoop_perm (less : α → α → Bool) (d : α) (n : Nat) :
    ∀ (fuel bs : Nat) (l : List α), List.Perm (mergeLoop less d n fuel bs l) l
  | 0, _, l => List.Perm.refl l
  | fuel + 1, bs, l => by
    unfold mergeLoop
    split
    · exact (mergeLoop_perm less d n fuel _ _).trans
        (mergePass_perm less d n bs (n + 1) 0 l)
    · exact List.Perm.refl l

theorem goSliceStable_perm (less : α → α → Bool) (d : α) (l : List α) :
    List.Perm (goSliceStable less d l) l :=
  (mergeLoop_perm less d l.length (l.length + 1) 20 _).trans
    (insBlocks_perm less d l.length 20 (l.length + 1) 0 l)

theorem mapGetLast_eq (f : LC → LC) :
    ∀ (tags : List LC) (t : LC), t ∈ tags → (∀ u ∈ tags, f u = f t → u = t) →
      mapGetLast (tags.map fun u => (f u, u)) (f t) = t := by
  intro tags
  induction tags with
  | nil => intro t ht _; cases ht
  | cons a rest ih =>
    intro t ht hinj
    simp only [List.map_cons, mapGetLast]
    have hkeys : ((rest.map fun u => (f u, u)).map Prod.fst) = rest.map f := by
      rw [List.map_map]
      rfl
    rw [hkeys]
    by_cases hk : (rest.map f).contains (f t) = true
    · rw [if_pos hk]
      have hmem : f t ∈ rest.map f := by simpa using hk
      obtain ⟨u, hu, hfu⟩ := List.mem_map.mp hmem
      have hut : u = t := hinj u (List.mem_cons_of_mem a hu) hfu
      subst hut
      exact ih u hu (fun v hv he => hinj v (List.mem_cons_of_mem a hv) he)
    · rw [if_neg hk]
      have hta : t = a := by
        rcases List.mem_cons.mp ht with h | h
        · exact h
        · exact absurd (by simpa using List.mem_map_of_mem f h) hk
      subst hta
      rw [if_pos rfl]

theorem processTags_perm (tags : List LC)
    (hinj : ∀ u ∈ tags, ∀ v ∈ tags, normalizeVersion u = normalizeVersion v → u = v) :
    List.Perm (processTags tags) tags := by
  unfold processTags
  dsimp only
  have h1 := (goSliceStable_perm goVersionLess [] (tags.map normalizeVersion)).map
    (mapGetLast (tags.map fun t => (normalizeVersion t, t)))
  have h2 : (tags.map normalizeVersion).map
      (mapGetLast (tags.map fun t => (normalizeVersion t, t))) = tags := by
    rw [List.map_map]
    have hpt : ∀ t ∈ tags,
        (mapGetLast (tags.map fun u => (normalizeVersion u, u)) ∘ normalizeVersion) t = id t := by
      intro t ht
      simp only [Function.comp_apply, id_eq]
      exact mapGetLast_eq normalizeVersion tags t ht (fun u hu he => hinj u hu t ht he)
    rw [List.map_congr_left hpt, List.map_id]
  rw [h2] at h1
  exact h1

theorem processTags_pair (t1 t2 : LC)
    (hne : normalizeVersion t1 ≠ normalizeVersion t2)
    (hge : goVersionLess (normalizeVersion t2) (normalizeVersion t1) = true) :
    processTags [t1, t2] = [t2, t1] := by
  have hne' : normalizeVersion t2 ≠ normalizeVersion t1 := fun h => hne h.symm
  simp [processTags, goSliceStable, mergeLoop, insBlocks, insSortGo, insOuter, insInner,
    lswap, mapGetLast, hge, hne, hne', List.getD, List.get?]

theorem startsWithL_self_append (p s : LC) : startsWithL p (p ++ s) = true := by
  induction p with
  | nil => rfl
  | cons c cs ih => simp [startsWithL, ih]

theorem startsWithL_head_ne {h a : Char} (t s : LC) (hne : h ≠ a) :
    startsWithL (h :: t) (a :: s) = false := by
  simp [startsWithL, hne]

theorem containsStr_head_mem {c : Char} {p : LC} :
    ∀ {s : LC}, containsStr s (c :: p) = true → c ∈ s := by
  intro s
  induction s with
  | nil => intro h; cases h
  | cons x xs ih =>
    intro h
    rcases Bool.or_eq_true_iff.mp h with h1 | h2
    · have hcx : c = x := by
        by_contra hne
        rw [startsWithL_head_ne p xs hne] at h1
        cases h1
      exact hcx ▸ List.mem_cons_self x xs
    · exact List.mem_cons_of_mem x (ih h2)

theorem containsStr_parts (A : LC) {pat : LC} (B : LC) (hpat : pat ≠ []) :
    containsStr (A ++ (pat ++ B)) pat = true := by
  induction A with
  | nil =>
    cases pat with
    | nil => cases hpat rfl
    | cons c cs =>
      show containsStr (c :: (cs ++ B)) (c :: cs) = true
      simp only [containsStr, List.append_eq]
      have : startsWithL (c :: cs) (c :: (cs ++ B)) = true := by
        have := startsWithL_self_append (c :: cs) B
        simpa using this
      rw [this]
      rfl
  | cons a A' ih =>
    simp only [List.cons_append, containsStr, List.append_eq, ih, Bool.or_true]

theorem not_containsStr {c : Char} {p : LC} {s : LC} (h : c ∉ s) :
    containsStr s (c :: p) = false := by
  by_contra hb
  exact h (containsStr_head_mem (by simpa using hb))

theorem replaceAllA_no_occ {h : Char} {t rep : LC} :
    ∀ (fuel : Nat) (s : LC), s.length ≤ fuel → h ∉ s → replaceAllA fuel s (h :: t) rep = s := by
  intro fuel
  induction fuel with
  | zero =>
    intro s hl _
    cases s with
    | nil => rfl
    | cons a as => simp at hl
  | succ f ih =>
    intro s hl hm
    cases s with
    | nil => rfl
    | cons a as =>
      have hha : h ≠ a := fun he => hm (he ▸ List.mem_cons_self a as)
      show replaceAllA (f + 1) (a :: as) (h :: t) rep = a :: as
      simp only [replaceAllA]
      rw [if_neg (by rw [startsWithL_head_ne t as hha]; simp)]
      rw [ih as (by simp at hl; omega) (fun hmem => hm (List.mem_cons_of_mem a hmem))]

theorem replaceAllA_single {h : Char} {t rep B : LC} (hB : h ∉ B) :
    ∀ (A : LC) (fuel : Nat), (A ++ ((h :: t) ++ B)).length ≤ fuel → h ∉ A →
      replaceAllA fuel (A ++ ((h :: t) ++ B)) (h :: t) rep = A ++ rep ++ B := by
  intro A
  induction A with
  | nil =>
    intro fuel hl _
    cases fuel with
    | zero => simp at hl
    | succ f =>
      show replaceAllA (f + 1) ([] ++ (h :: (t ++ B))) (h :: t) rep = [] ++ rep ++ B
      simp only [List.nil_append]
      simp only [replaceAllA]
      rw [if_pos ⟨by simp, by simpa using startsWithL_self_append (h :: t) B⟩]
      have hdrop : (h :: (t ++ B)).drop (h :: t).length = B := by
        simp [List.drop_left]
      rw [hdrop]
      rw [replaceAllA_no_occ f B (by simp at hl; omega) hB]
  | cons a A' ih =>
    intro fuel hl hA
    cases fuel with
    | zero => simp at hl
    | succ f =>
      have hha : h ≠ a := fun he => hA (he ▸ List.mem_cons_self a A')
      show replaceAllA (f + 1) (a :: (A' ++ ((h :: t) ++ B))) (h :: t) rep =
        a :: (A' ++ rep ++ B)
      simp only [replaceAllA]
      rw [if_neg (by rw [startsWithL_head_ne t (A' ++ ((h :: t) ++ B)) hha]; simp)]
      rw [ih f (by simp at hl ⊢; omega) (fun hmem => hA (List.mem_cons_of_mem a hmem))]

theorem replaceAll_single {h : Char} {t : LC} (A : LC) (rep B : LC)
    (hA : h ∉ A) (hB : h ∉ B) :
    replaceAll (A ++ ((h :: t) ++ B)) (h :: t) rep = A ++ rep ++ B :=
  replaceAllA_single hB A _ (Nat.le_refl _) hA

theorem splitOnChar_no_sep {sep : Char} : ∀ {s : LC}, sep ∉ s → splitOnChar sep s = [s] := by
  intro s
  induction s with
  | nil => intro _; rfl
  | cons c cs ih =>
    intro h
    have hcs : c ≠ sep := fun he => h (he ▸ List.mem_cons_self c cs)
    simp only [splitOnChar, if_neg hcs]
    rw [ih (fun hm => h (List.mem_cons_of_mem c hm))]

theorem splitOnChar_append {sep : Char} :
    ∀ (A R : LC), sep ∉ A → splitOnChar sep (A ++ sep :: R) = A :: splitOnChar sep R := by
  intro A
  induction A with
  | nil => intro R _; simp [splitOnChar]
  | cons a A' ih =>
    intro R h
    have has : a ≠ sep := fun he => h (he ▸ List.mem_cons_self a A')
    simp only [List.cons_append, splitOnChar, if_neg has, List.append_eq]
    rw [ih R (fun hm => h (List.mem_cons_of_mem a hm))]

theorem splitNChar_no_sep {sep : Char} (n : Nat) :
    ∀ {s : LC}, sep ∉ s → splitNChar sep (n + 2) s = [s] := by
  intro s
  induction s with
  | nil => intro _; rfl
  | cons c cs ih =>
    intro h
    have hcs : c ≠ sep := fun he => h (he ▸ List.mem_cons_self c cs)
    simp only [splitNChar, if_neg hcs]
    rw [ih (fun hm => h (List.mem_cons_of_mem c hm))]

theorem splitNChar_append {sep : Char} (n : Nat) :
    ∀ (A R : LC), sep ∉ A →
      splitNChar sep (n + 2) (A ++ sep :: R) = A :: splitNChar sep (n + 1) R := by
  intro A
  induction A with
  | nil => intro R _; simp [splitNChar]
  | cons a A' ih =>
    intro R h
    have has : a ≠ sep := fun he => h (he ▸ List.mem_cons_self a A')
    simp only [List.cons_append, splitNChar, if_neg has, List.append_eq]
    rw [ih R (fun hm => h (List.mem_cons_of_mem a hm))]

theorem indexOfC_not_mem {c : Char} : ∀ {s : LC}, c ∉ s → indexOfC c s = none := by
  intro s
  induction s with
  | nil => intro _; rfl
  | cons x xs ih =>
    intro h
    have hxc : x ≠ c := fun he => h (he ▸ List.mem_cons_self x xs)
    simp only [indexOfC, if_neg hxc]
    rw [ih (fun hm => h (List.mem_cons_of_mem x hm))]
    rfl

theorem indexOfC_append {c : Char} :
    ∀ (A R : LC), c ∉ A → indexOfC c (A ++ c :: R) = some A.length := by
  intro A
  induction A with
  | nil => intro R _; simp [indexOfC]
  | cons a A' ih =>
    intro R h
    have hac : a ≠ c := fun he => h (he ▸ List.mem_cons_self a A')
    simp only [List.cons_append, indexOfC, if_neg hac, List.append_eq]
    rw [ih R (fun hm => h (List.mem_cons_of_mem a hm))]
    simp

theorem not_mem_of_all_digits {s : LC} (hs : s.all isDigitC = true) {c : Char}
    (hc : isDigitC c = false) : c ∉ s := by
  intro hm
  have := List.all_eq_true.mp hs c hm
  rw [hc] at this
  cases this

theorem splitNChar_one (sep : Char) : ∀ (s : LC), splitNChar sep 1 s = [s]
  | [] => rfl
  | _ :: _ => rfl

theorem parseNumSection_ok {s : LC} (h : numeralOK s) :
    parseNumSection s = some (digitsVal s) := by
  obtain ⟨h1, h2, h3, h4⟩ := h
  have h4' : digitsVal s < 18446744073709551616 := by
    have he : (2 : Nat) ^ 64 = 18446744073709551616 := by norm_num
    exact he ▸ h4
  simp [parseNumSection, parseUint64, h1, h2, h3, h4']

theorem numeral_no_dot {s : LC} (h : numeralOK s) : '.' ∉ s :=
  not_mem_of_all_digits h.2.1 (by decide)

theorem numeral_no_dash {s : LC} (h : numeralOK s) : '-' ∉ s :=
  not_mem_of_all_digits h.2.1 (by decide)

theorem numeral_no_plus {s : LC} (h : numeralOK s) : '+' ∉ s :=
  not_mem_of_all_digits h.2.1 (by decide)

theorem numeral_no_b {s : LC} (h : numeralOK s) : 'b' ∉ s :=
  not_mem_of_all_digits h.2.1 (by decide)

theorem numeral_no_r {s : LC} (h : numeralOK s) : 'r' ∉ s :=
  not_mem_of_all_digits h.2.1 (by decide)

theorem semverParse_noPre (A B C : LC) (hA : numeralOK A) (hB : numeralOK B)
    (hC : numeralOK C) :
    semverParse (A ++ '.' :: (B ++ '.' :: C)) =
      some ⟨digitsVal A, digitsVal B, digitsVal C, [], []⟩ := by
  unfold semverParse
  rw [if_neg (by simp [hA.1])]
  rw [splitNChar_append 1 A (B ++ '.' :: C) (numeral_no_dot hA)]
  rw [splitNChar_append 0 B C (numeral_no_dot hB)]
  rw [show (0 : Nat) + 1 = 1 from rfl, splitNChar_one '.' C]
  dsimp only
  rw [parseNumSection_ok hA, parseNumSection_ok hB]
  dsimp only
  rw [indexOfC_not_mem (numeral_no_plus hC)]
  dsimp only
  rw [indexOfC_not_mem (numeral_no_dash hC)]
  dsimp only
  rw [parseNumSection_ok hC]
  dsimp only [parsePRList]
  rfl

theorem drop_after_dash (C R : LC) : (C ++ '-' :: R).drop (C.length + 1) = R := by
  rw [show C ++ '-' :: R = (C ++ ['-']) ++ R by simp]
  rw [show C.length + 1 = (C ++ ['-']).length by simp]
  exact List.drop_left _ _

theorem semverParse_withPre (A B C R : LC) (hA : numeralOK A) (hB : numeralOK B)
    (hC : numeralOK C) (hR : R ≠ []) (hRal : R.all isAlnumC = true)
    (hRnd : R.all isDigitC = false) (hRdot : '.' ∉ R) (hRplus : '+' ∉ R) :
    semverParse (A ++ '.' :: (B ++ '.' :: (C ++ '-' :: R))) =
      some ⟨digitsVal A, digitsVal B, digitsVal C, [.alnum R], []⟩ := by
  unfold semverParse
  rw [if_neg (by simp [hA.1])]
  rw [splitNChar_append 1 A (B ++ '.' :: (C ++ '-' :: R)) (numeral_no_dot hA)]
  rw [splitNChar_append 0 B (C ++ '-' :: R) (numeral_no_dot hB)]
  rw [show (0 : Nat) + 1 = 1 from rfl, splitNChar_one '.' (C ++ '-' :: R)]
  dsimp only
  rw [parseNumSection_ok hA, parseNumSection_ok hB]
  dsimp only
  have hplus : '+' ∉ C ++ '-' :: R := by
    simp only [List.mem_append, List.mem_cons]
    push_neg
    exact ⟨numeral_no_plus hC, by decide, hRplus⟩
  rw [indexOfC_not_mem hplus]
  dsimp only
  rw [indexOfC_append C R (numeral_no_dash hC)]
  dsimp only
  rw [List.take_left, drop_after_dash, splitOnChar_no_sep hRdot]
  rw [parseNumSection_ok hC]
  dsimp only [parsePRList, parsePRId]
  rw [if_neg hR, if_neg (by simp [hRnd]), if_pos hRal]
  rfl

theorem not_mem_dotcat {c : Char} {X Y : LC} (hx : c ∉ X) (hy : c ∉ Y) (hc : c ≠ '.') :
    c ∉ X ++ '.' :: Y := by
  simp only [List.mem_append, List.mem_cons]
  push_neg
  exact ⟨hx, hc, hy⟩

theorem norm_1sec (A : LC) (hA : numeralOK A) :
    normalizeVersion A = A ++ ['.', '0', '.', '0'] := by
  unfold normalizeVersion
  dsimp only
  rw [splitOnChar_no_sep (numeral_no_dot hA)]
  rfl

theorem norm_2sec (A B : LC) (hA : numeralOK A) (hB : numeralOK B) :
    normalizeVersion (A ++ '.' :: B) = (A ++ '.' :: B) ++ ['.', '0'] := by
  unfold normalizeVersion
  dsimp only
  rw [splitOnChar_append A B (numeral_no_dot hA),
    splitOnChar_no_sep (numeral_no_dot hB)]
  have hb : ('b' : Char) ∉ A ++ '.' :: B :=
    not_mem_dotcat (numeral_no_b hA) (numeral_no_b hB) (by decide)
  have hr : ('r' : Char) ∉ A ++ '.' :: B :=
    not_mem_dotcat (numeral_no_r hA) (numeral_no_r hB) (by decide)
  have hcb : containsStr (A ++ '.' :: B) betaStr = false := not_containsStr hb
  have hcr : containsStr (A ++ '.' :: B) rcStr = false := not_containsStr hr
  simp only [List.length_cons, List.length_nil, hcb, hcr, Bool.false_eq_true, if_false]

theorem norm_3sec (A B C : LC) (hA : numeralOK A) (hB : numeralOK B) (hC : numeralOK C) :
    normalizeVersion (A ++ '.' :: (B ++ '.' :: C)) = A ++ '.' :: (B ++ '.' :: C) := by
  unfold normalizeVersion
  dsimp only
  rw [splitOnChar_append A (B ++ '.' :: C) (numeral_no_dot hA),
    splitOnChar_append B C (numeral_no_dot hB),
    splitOnChar_no_sep (numeral_no_dot hC)]
  have hb : ('b' : Char) ∉ A ++ '.' :: (B ++ '.' :: C) :=
    not_mem_dotcat (numeral_no_b hA)
      (not_mem_dotcat (numeral_no_b hB) (numeral_no_b hC) (by decide)) (by decide)
  have hr : ('r' : Char) ∉ A ++ '.' :: (B ++ '.' :: C) :=
    not_mem_dotcat (numeral_no_r hA)
      (not_mem_dotcat (numeral_no_r hB) (numeral_no_r hC) (by decide)) (by decide)
  have hcb : containsStr (A ++ '.' :: (B ++ '.' :: C)) betaStr = false :=
    not_containsStr hb
  have hcr : containsStr (A ++ '.' :: (B ++ '.' :: C)) rcStr = false :=
    not_containsStr hr
  simp only [List.length_cons, List.length_nil, hcb, hcr, Bool.false_eq_true, if_false]

theorem no_dot_tail_beta {B K : LC} (hB : numeralOK B) (hK : K.all isDigitC = true) :
    ('.' : Char) ∉ B ++ (betaStr ++ K) := by
  intro hm
  rcases List.mem_append.mp hm with h | h
  · exact numeral_no_dot hB h
  · rcases List.mem_append.mp h with h2 | h2
    · simp [betaStr] at h2
    · exact not_mem_of_all_digits hK (by decide) h2

theorem no_dot_tail_rc {B K : LC} (hB : numeralOK B) (hK : K.all isDigitC = true) :
    ('.' : Char) ∉ B ++ (rcStr ++ K) := by
  intro hm
  rcases List.mem_append.mp hm with h | h
  · exact numeral_no_dot hB h
  · rcases List.mem_append.mp h with h2 | h2
    · simp [rcStr] at h2
    · exact not_mem_of_all_digits hK (by decide) h2

theorem norm_2sec_beta (A B K : LC) (hA : numeralOK A) (hB : numeralOK B)
    (hK : K.all isDigitC = true) :
    normalizeVersion (A ++ '.' :: (B ++ (betaStr ++ K))) =
      (A ++ '.' :: B) ++ ['.', '0', '-', 'b', 'e', 't', 'a'] ++ K := by
  have hshape : A ++ '.' :: (B ++ (betaStr ++ K)) =
      (A ++ '.' :: B) ++ (betaStr ++ K) := by
    simp
  unfold normalizeVersion
  dsimp only
  rw [splitOnChar_append A (B ++ (betaStr ++ K)) (numeral_no_dot hA)]
  rw [splitOnChar_no_sep (no_dot_tail_beta hB hK)]
  rw [hshape]
  rw [show containsStr ((A ++ '.' :: B) ++ (betaStr ++ K)) betaStr = true from
    containsStr_parts (A ++ '.' :: B) K (by decide)]
  have hbL : ('b' : Char) ∉ A ++ '.' :: B :=
    not_mem_dotcat (numeral_no_b hA) (numeral_no_b hB) (by decide)
  have hbK : ('b' : Char) ∉ K := not_mem_of_all_digits hK (by decide)
  simp only [List.length_cons, List.length_nil, if_true]
  exact replaceAll_single (A ++ '.' :: B) ['.', '0', '-', 'b', 'e', 't', 'a'] K hbL hbK

theorem norm_2sec_rc (A B K : LC) (hA : numeralOK A) (hB : numeralOK B)
    (hK : K.all isDigitC = true) :
    normalizeVersion (A ++ '.' :: (B ++ (rcStr ++ K))) =
      (A ++ '.' :: B) ++ ['.', '0', '-', 'r', 'c'] ++ K := by
  have hshape : A ++ '.' :: (B ++ (rcStr ++ K)) =
      (A ++ '.' :: B) ++ (rcStr ++ K) := by
    simp
  unfold normalizeVersion
  dsimp only
  rw [splitOnChar_append A (B ++ (rcStr ++ K)) (numeral_no_dot hA)]
  rw [splitOnChar_no_sep (no_dot_tail_rc hB hK)]
  have hbv : ('b' : Char) ∉ A ++ '.' :: (B ++ (rcStr ++ K)) := by
    refine not_mem_dotcat (numeral_no_b hA) ?_ (by decide)
    intro hm
    rcases List.mem_append.mp hm with h | h
    · exact numeral_no_b hB h
    · rcases List.mem_append.mp h with h2 | h2
      · simp [rcStr] at h2
      · exact not_mem_of_all_digits hK (by decide) h2
  have hcbv : containsStr (A ++ '.' :: (B ++ (rcStr ++ K))) betaStr = false :=
    not_containsStr hbv
  rw [hcbv]
  rw [hshape]
  rw [show containsStr ((A ++ '.' :: B) ++ (rcStr ++ K)) rcStr = true from
    containsStr_parts (A ++ '.' :: B) K (by decide)]
  have hrL : ('r' : Char) ∉ A ++ '.' :: B :=
    not_mem_dotcat (numeral_no_r hA) (numeral_no_r hB) (by decide)
  have hrK : ('r' : Char) ∉ K := not_mem_of_all_digits hK (by decide)
  simp only [List.length_cons, List.length_nil, Bool.false_eq_true, if_false, if_true]
  exact replaceAll_single (A ++ '.' :: B) ['.', '0', '-', 'r', 'c'] K hrL hrK

theorem norm_3sec_rc (A B C K : LC) (hA : numeralOK A) (hB : numeralOK B)
    (hC : numeralOK C) (hK : K.all isDigitC = true) :
    normalizeVersion (A ++ '.' :: (B ++ '.' :: (C ++ (rcStr ++ K)))) =
      (A ++ '.' :: (B ++ '.' :: C)) ++ ['-', 'r', 'c'] ++ K := by
  have hshape : A ++ '.' :: (B ++ '.' :: (C ++ (rcStr ++ K))) =
      (A ++ '.' :: (B ++ '.' :: C)) ++ (rcStr ++ K) := by
    simp
  unfold normalizeVersion
  dsimp only
  rw [splitOnChar_append A (B ++ '.' :: (C ++ (rcStr ++ K))) (numeral_no_dot hA)]
  rw [splitOnChar_append B (C ++ (rcStr ++ K)) (numeral_no_dot hB)]
  rw [splitOnChar_no_sep (no_dot_tail_rc hC hK)]
  rw [hshape]
  rw [show containsStr ((A ++ '.' :: (B ++ '.' :: C)) ++ (rcStr ++ K)) rcStr = true from
    containsStr_parts (A ++ '.' :: (B ++ '.' :: C)) K (by decide)]
  have hrL : ('r' : Char) ∉ A ++ '.' :: (B ++ '.' :: C) :=
    not_mem_dotcat (numeral_no_r hA)
      (not_mem_dotcat (numeral_no_r hB) (numeral_no_r hC) (by decide)) (by decide)
  have hrK : ('r' : Char) ∉ K := not_mem_of_all_digits hK (by decide)
  simp only [List.length_cons, List.length_nil, if_true]
  exact replaceAll_single (A ++ '.' :: (B ++ '.' :: C)) ['-', 'r', 'c'] K hrL hrK

theorem norm_3sec_beta (A B C K : LC) (hA : numeralOK A) (hB : numeralOK B)
    (hC : numeralOK C) (hK : K.all isDigitC = true) :
    normalizeVersion (A ++ '.' :: (B ++ '.' :: (C ++ (betaStr ++ K)))) =
      (A ++ '.' :: (B ++ '.' :: C)) ++ ['-', 'b', 'e', 't', 'a'] ++ K := by
  have hshape : A ++ '.' :: (B ++ '.' :: (C ++ (betaStr ++ K))) =
      (A ++ '.' :: (B ++ '.' :: C)) ++ (betaStr ++ K) := by
    simp
  unfold normalizeVersion
  dsimp only
  rw [splitOnChar_append A (B ++ '.' :: (C ++ (betaStr ++ K))) (numeral_no_dot hA)]
  rw [splitOnChar_append B (C ++ (betaStr ++ K)) (numeral_no_dot hB)]
  rw [splitOnChar_no_sep (no_dot_tail_beta hC hK)]
  have hrv : ('r' : Char) ∉ A ++ '.' :: (B ++ '.' :: (C ++ (betaStr ++ K))) := by
    refine not_mem_dotcat (numeral_no_r hA) ?_ (by decide)
    refine not_mem_dotcat (numeral_no_r hB) ?_ (by decide)
    intro hm
    rcases List.mem_append.mp hm with h | h
    · exact numeral_no_r hC h
    · rcases List.mem_append.mp h with h2 | h2
      · simp [betaStr] at h2
      · exact not_mem_of_all_digits hK (by decide) h2
  have hcrv : containsStr (A ++ '.' :: (B ++ '.' :: (C ++ (betaStr ++ K)))) rcStr = false :=
    not_containsStr hrv
  rw [hcrv]
  rw [hshape]
  rw [show containsStr ((A ++ '.' :: (B ++ '.' :: C)) ++ (betaStr ++ K)) betaStr = true from
    containsStr_parts (A ++ '.' :: (B ++ '.' :: C)) K (by decide)]
  have hbL : ('b' : Char) ∉ A ++ '.' :: (B ++ '.' :: C) :=
    not_mem_dotcat (numeral_no_b hA)
      (not_mem_dotcat (numeral_no_b hB) (numeral_no_b hC) (by decide)) (by decide)
  have hbK : ('b' : Char) ∉ K := not_mem_of_all_digits hK (by decide)
  simp only [List.length_cons, List.length_nil, Bool.false_eq_true, if_false, if_true]
  exact replaceAll_single (A ++ '.' :: (B ++ '.' :: C)) ['-', 'b', 'e', 't', 'a'] K hbL hbK

theorem copyChunks_spec :
    ∀ (chunks : List Bytes) (st : CopyState),
      copyChunks chunks st =
        ⟨st.fileBytes ++ chunks.flatten, st.hashBytes ++ chunks.flatten,
          st.barCount + chunks.flatten.length⟩
  | [], st => by simp [copyChunks]
  | c :: cs, st => by
    show copyChunks cs (multiWrite st c) = _
    rw [copyChunks_spec cs (multiWrite st c)]
    simp [multiWrite, List.append_assoc]
    omega

theorem copyChunks_init (chunks : List Bytes) :
    copyChunks chunks ⟨[], [], 0⟩ =
      ⟨chunks.flatten, chunks.flatten, chunks.flatten.length⟩ := by
  rw [copyChunks_spec]
  simp

/-- C1: on every delivered body, the bytes written to the cache file, the
bytes fed to the digest accumulator, and the progress count agree chunk by
chunk; and when the sidecar digest matches the archive bytes the call
succeeds with that digest verified. -/
theorem downloadGoVersion_digest_ok (H : Bytes → Bytes) (env : DLEnv) (s : Nat)
    (hreq : env.reqOk = true) (hs : env.respStatus = some s) (hs2 : s ≤ 299)
    (n : Int) (hn : atoiGo env.contentLength = some n)
    (hopen : env.openOk = true) (hread : env.bodyReadErr = false)
    (c : Nat) (hc : env.sidecarStatus = some c) (hc2 : c ≤ 299)
    (hbody : env.sidecarBody = some (hexString (H env.bodyChunks.flatten)))
    (hunp : env.unpackOk = true) :
    (downloadGoVersionRun H env).resultErr = none ∧
    (downloadGoVersionRun H env).cacheFile = some env.bodyChunks.flatten ∧
    (downloadGoVersionRun H env).hashedBytes = env.bodyChunks.flatten ∧
    (downloadGoVersionRun H env).barCount = env.bodyChunks.flatten.length ∧
    (downloadGoVersionRun H env).computedSum = hexString (H env.bodyChunks.flatten) := by
  have hs3 : ¬(s > 299) := by omega
  have hc3 : ¬(c > 299) := by omega
  simp only [downloadGoVersionRun, hreq, hs, hn, hopen, hread, hc, hbody, hunp,
    copyChunks_init, hs3, hc3, Bool.true_eq_false, if_false, ne_eq, not_true_eq_false,
    Bool.false_eq_true, if_true, reduceIte]
  simp

/-- C2: a computed digest that differs from the published sidecar digest
yields a checksum-mismatch error carrying both values, leaves the
downloaded file in the cache, and never touches the destination. -/
theorem downloadGoVersion_mismatch (H : Bytes → Bytes) (env : DLEnv) (s : Nat)
    (hreq : env.reqOk = true) (hs : env.respStatus = some s) (hs2 : s ≤ 299)
    (n : Int) (hn : atoiGo env.contentLength = some n)
    (hopen : env.openOk = true) (hread : env.bodyReadErr = false)
    (c : Nat) (hc : env.sidecarStatus = some c) (hc2 : c ≤ 299)
    (pub : LC) (hbody : env.sidecarBody = some pub)
    (hmis : pub ≠ hexString (H env.bodyChunks.flatten)) :
    (downloadGoVersionRun H env).resultErr =
      some (.checksumMismatch (hexString (H env.bodyChunks.flatten)) pub) ∧
    (downloadGoVersionRun H env).cacheFile = some env.bodyChunks.flatten ∧
    (downloadGoVersionRun H env).destRemoved = false ∧
    (downloadGoVersionRun H env).unpackInvoked = false := by
  have hs3 : ¬(s > 299) := by omega
  have hc3 : ¬(c > 299) := by omega
  have hmis2 : hexString (H env.bodyChunks.flatten) ≠ pub := fun h => hmis h.symm
  simp only [downloadGoVersionRun, hreq, hs, hn, hopen, hread, hc, hbody,
    copyChunks_init, hs3, hc3, Bool.true_eq_false, if_false, Bool.false_eq_true,
    if_true, reduceIte]
  simp [hmis2]

/-- C10: the destination directory is touched (removed, then extracted
into) only after the computed digest equals the published sidecar digest;
every failure other than the extraction stage leaves it untouched. -/
theorem downloadGoVersion_dest_frame (H : Bytes → Bytes) (env : DLEnv) :
    ((downloadGoVersionRun H env).destRemoved = true ∨
        (downloadGoVersionRun H env).unpackInvoked = true →
      env.sidecarBody = some (hexString (H env.bodyChunks.flatten))) ∧
    (∀ e, (downloadGoVersionRun H env).resultErr = some e → e ≠ DLError.unpackError →
      (downloadGoVersionRun H env).destRemoved = false ∧
      (downloadGoVersionRun H env).unpackInvoked = false) := by
  by_cases h1 : env.reqOk = false
  · simp [downloadGoVersionRun, h1]
  cases hs : env.respStatus with
  | none => simp [downloadGoVersionRun, h1, hs]
  | some st =>
    by_cases h2 : st > 299
    · simp [downloadGoVersionRun, h1, hs, h2]
    cases hn : atoiGo env.contentLength with
    | none => simp [downloadGoVersionRun, h1, hs, h2, hn]
    | some n =>
      by_cases h3 : env.openOk = false
      · simp [downloadGoVersionRun, h1, hs, h2, hn, h3]
      by_cases h4 : env.bodyReadErr = true
      · simp [downloadGoVersionRun, h1, hs, h2, hn, h3, h4, copyChunks_init]
      cases hss : env.sidecarStatus with
      | none => simp [downloadGoVersionRun, h1, hs, h2, hn, h3, h4, hss, copyChunks_init]
      | some sst =>
        by_cases h5 : sst > 299
        · simp [downloadGoVersionRun, h1, hs, h2, hn, h3, h4, hss, h5, copyChunks_init]
        cases hsb : env.sidecarBody with
        | none =>
          simp [downloadGoVersionRun, h1, hs, h2, hn, h3, h4, hss, h5, hsb, copyChunks_init]
        | some pub =>
          by_cases h6 : hexString (H env.bodyChunks.flatten) ≠ pub
          · simp [downloadGoVersionRun, h1, hs, h2, hn, h3, h4, hss, h5, hsb, h6,
              copyChunks_init]
          · have h6' : hexString (H env.bodyChunks.flatten) = pub := by simpa using h6
            by_cases h7 : env.unpackOk = true
            · simp [downloadGoVersionRun, h1, hs, h2, hn, h3, h4, hss, h5, hsb, h6, h6', h7,
                copyChunks_init]
            · simp [downloadGoVersionRun, h1, hs, h2, hn, h3, h4, hss, h5, hsb, h6, h6', h7,
                copyChunks_init]

theorem getRemoteVersion_ok (env : CatEnv) (st : Nat) (b : LC)
    (hst : env.remoteStatus = some st) (h2 : st ≤ 299) (hb : env.remoteBody = some b)
    (hw : env.writeOk = true) : getRemoteVersion env = (none, some b, true) := by
  unfold getRemoteVersion
  rw [hst]
  dsimp only
  rw [if_neg (by omega), hb]
  dsimp only
  simp [hw]

theorem remoteBranch_fetched (env : CatEnv) :
    (match getRemoteVersion env with
      | (some e, _, ow) => (⟨some e, [], true, ow⟩ : CatOutcome)
      | (none, some b, ow) => ⟨none, getAllGoVersionPure b, true, ow⟩
      | (none, none, ow) => ⟨none, [], true, ow⟩).fetchedRemote = true := by
  rcases hgr : getRemoteVersion env with ⟨e, ob, ow⟩
  cases e with
  | none =>
    cases ob with
    | none => rfl
    | some b => rfl
  | some err => rfl

/-- C7: a cache file younger than 72 hours is read with no remote fetch
and no cache write; a missing cache file or one 72 hours old or older
triggers a remote fetch, which on success overwrites the cache. -/
theorem getAllGoVersion_cache_boundary (env : CatEnv) :
    (env.cacheExists = true → env.cacheAgeNs < hours72Ns →
      (getAllGoVersionRun env).fetchedRemote = false ∧
      (getAllGoVersionRun env).cacheOverwritten = false ∧
      ∀ b, env.cacheContent = some b →
        (getAllGoVersionRun env).resultErr = none ∧
        (getAllGoVersionRun env).versions = getAllGoVersionPure b) ∧
    ((env.cacheExists = false ∨ hours72Ns ≤ env.cacheAgeNs) →
      (getAllGoVersionRun env).fetchedRemote = true ∧
      ∀ st b, env.remoteStatus = some st → st ≤ 299 → env.remoteBody = some b →
        env.writeOk = true →
        (getAllGoVersionRun env).cacheOverwritten = true ∧
        (getAllGoVersionRun env).versions = getAllGoVersionPure b) := by
  constructor
  · intro hex hage
    have hne : ¬(env.cacheExists = false) := by simp [hex]
    unfold getAllGoVersionRun
    rw [if_neg hne, if_pos hage]
    cases hcc : env.cacheContent with
    | none =>
      exact ⟨rfl, rfl, fun b hb => by cases hb⟩
    | some b0 =>
      refine ⟨rfl, rfl, fun b hb => ?_⟩
      cases hb
      exact ⟨rfl, rfl⟩
  · intro hor
    have hred : getAllGoVersionRun env =
        (match getRemoteVersion env with
          | (some e, _, ow) => (⟨some e, [], true, ow⟩ : CatOutcome)
          | (none, some b, ow) => ⟨none, getAllGoVersionPure b, true, ow⟩
          | (none, none, ow) => ⟨none, [], true, ow⟩) := by
      unfold getAllGoVersionRun
      rcases hor with hor | hor
      · rw [if_pos hor]
      · by_cases hex : env.cacheExists = false
        · rw [if_pos hex]
        · rw [if_neg hex, if_neg (by omega)]
    constructor
    · rw [hred]
      exact remoteBranch_fetched env
    · intro st b hst h2 hb hw
      rw [hred, getRemoteVersion_ok env st b hst h2 hb hw]
      exact ⟨rfl, rfl⟩

/-- C8: extraction strips exactly the single leading `go/` segment from
entry names under the archive root before joining with the destination,
and passes any other entry name through unchanged. -/
theorem unpack_strips_go_root (dest rest name : LC) :
    unpackEntryPath dest (['g', 'o', '/'] ++ rest) = fpJoin dest rest ∧
    (startsWithL ['g', 'o', '/'] name = false →
      unpackEntryPath dest name = fpJoin dest name) := by
  constructor
  · have h := startsWithL_self_append ['g', 'o', '/'] rest
    simp only [unpackEntryPath, stripGoRoot, h, if_true]
    rfl
  · intro hn
    simp [unpackEntryPath, stripGoRoot, hn]

theorem digits_alnum {K : LC} (hK : K.all isDigitC = true) : K.all isAlnumC = true := by
  rw [List.all_eq_true] at hK ⊢
  intro c hc
  have h := hK c hc
  simp only [isAlnumC]
  simp [h]

theorem not_mem_beta_digits {K : LC} (hK : K.all isDigitC = true) {c : Char}
    (h1 : c ∉ betaStr) (h2 : isDigitC c = false) : c ∉ betaStr ++ K := by
  intro hm
  rcases List.mem_append.mp hm with h | h
  · exact h1 h
  · exact not_mem_of_all_digits hK h2 h

theorem not_mem_rc_digits {K : LC} (hK : K.all isDigitC = true) {c : Char}
    (h1 : c ∉ rcStr) (h2 : isDigitC c = false) : c ∉ rcStr ++ K := by
  intro hm
  rcases List.mem_append.mp hm with h | h
  · exact h1 h
  · exact not_mem_of_all_digits hK h2 h

theorem beta_k_not_digits (K : LC) : (betaStr ++ K).all isDigitC = false := by
  rw [show betaStr ++ K = 'b' :: (['e', 't', 'a'] ++ K) from rfl, List.all_cons]
  rw [show isDigitC 'b' = false from by decide]
  rfl

theorem rc_k_not_digits (K : LC) : (rcStr ++ K).all isDigitC = false := by
  rw [show rcStr ++ K = 'r' :: (['c'] ++ K) from rfl, List.all_cons]
  rw [show isDigitC 'r' = false from by decide]
  rfl

theorem beta_k_alnum {K : LC} (hK : K.all isDigitC = true) :
    (betaStr ++ K).all isAlnumC = true := by
  rw [List.all_append, digits_alnum hK]
  decide

theorem rc_k_alnum {K : LC} (hK : K.all isDigitC = true) :
    (rcStr ++ K).all isAlnumC = true := by
  rw [List.all_append, digits_alnum hK]
  decide

/-- C4 (amended): for tags built from canonical `uint64` numerals with a
`beta`/`rc` marker only in the 2- and 3-section forms, normalization
produces the documented canonical shape and the semver parse of the
normalized form always succeeds. -/
theorem normalize_parse_sound (A B C K : LC) (hA : numeralOK A) (hB : numeralOK B)
    (hC : numeralOK C) (hK : K.all isDigitC = true) :
    (normalizeVersion A = A ++ ['.', '0', '.', '0'] ∧
      semverParse (normalizeVersion A) = some ⟨digitsVal A, 0, 0, [], []⟩) ∧
    (normalizeVersion (A ++ '.' :: B) = (A ++ '.' :: B) ++ ['.', '0'] ∧
      semverParse (normalizeVersion (A ++ '.' :: B)) =
        some ⟨digitsVal A, digitsVal B, 0, [], []⟩) ∧
    (normalizeVersion (A ++ '.' :: (B ++ (betaStr ++ K))) =
        (A ++ '.' :: B) ++ ['.', '0', '-', 'b', 'e', 't', 'a'] ++ K ∧
      semverParse (normalizeVersion (A ++ '.' :: (B ++ (betaStr ++ K)))) =
        some ⟨digitsVal A, digitsVal B, 0, [.alnum (betaStr ++ K)], []⟩) ∧
    (normalizeVersion (A ++ '.' :: (B ++ (rcStr ++ K))) =
        (A ++ '.' :: B) ++ ['.', '0', '-', 'r', 'c'] ++ K ∧
      semverParse (normalizeVersion (A ++ '.' :: (B ++ (rcStr ++ K)))) =
        some ⟨digitsVal A, digitsVal B, 0, [.alnum (rcStr ++ K)], []⟩) ∧
    (normalizeVersion (A ++ '.' :: (B ++ '.' :: C)) = A ++ '.' :: (B ++ '.' :: C) ∧
      semverParse (normalizeVersion (A ++ '.' :: (B ++ '.' :: C))) =
        some ⟨digitsVal A, digitsVal B, digitsVal C, [], []⟩) ∧
    (normalizeVersion (A ++ '.' :: (B ++ '.' :: (C ++ (rcStr ++ K)))) =
        (A ++ '.' :: (B ++ '.' :: C)) ++ ['-', 'r', 'c'] ++ K ∧
      semverParse (normalizeVersion (A ++ '.' :: (B ++ '.' :: (C ++ (rcStr ++ K))))) =
        some ⟨digitsVal A, digitsVal B, digitsVal C, [.alnum (rcStr ++ K)], []⟩) ∧
    (normalizeVersion (A ++ '.' :: (B ++ '.' :: (C ++ (betaStr ++ K)))) =
        (A ++ '.' :: (B ++ '.' :: C)) ++ ['-', 'b', 'e', 't', 'a'] ++ K ∧
      semverParse (normalizeVersion (A ++ '.' :: (B ++ '.' :: (C ++ (betaStr ++ K))))) =
        some ⟨digitsVal A, digitsVal B, digitsVal C, [.alnum (betaStr ++ K)], []⟩) := by
  refine ⟨⟨norm_1sec A hA, ?_⟩, ⟨norm_2sec A B hA hB, ?_⟩,
    ⟨norm_2sec_beta A B K hA hB hK, ?_⟩, ⟨norm_2sec_rc A B K hA hB hK, ?_⟩,
    ⟨norm_3sec A B C hA hB hC, ?_⟩, ⟨norm_3sec_rc A B C K hA hB hC hK, ?_⟩,
    ⟨norm_3sec_beta A B C K hA hB hC hK, ?_⟩⟩
  · rw [norm_1sec A hA]
    exact semverParse_noPre A ['0'] ['0'] hA (by decide) (by decide)
  · rw [norm_2sec A B hA hB]
    rw [show (A ++ '.' :: B) ++ ['.', '0'] = A ++ '.' :: (B ++ '.' :: ['0']) by simp]
    exact semverParse_noPre A B ['0'] hA hB (by decide)
  · rw [norm_2sec_beta A B K hA hB hK]
    rw [show (A ++ '.' :: B) ++ ['.', '0', '-', 'b', 'e', 't', 'a'] ++ K =
      A ++ '.' :: (B ++ '.' :: (['0'] ++ '-' :: (betaStr ++ K))) by simp [betaStr]]
    exact semverParse_withPre A B ['0'] (betaStr ++ K) hA hB (by decide)
      (by simp [betaStr]) (beta_k_alnum hK) (beta_k_not_digits K)
      (not_mem_beta_digits hK (by decide) (by decide))
      (not_mem_beta_digits hK (by decide) (by decide))
  · rw [norm_2sec_rc A B K hA hB hK]
    rw [show (A ++ '.' :: B) ++ ['.', '0', '-', 'r', 'c'] ++ K =
      A ++ '.' :: (B ++ '.' :: (['0'] ++ '-' :: (rcStr ++ K))) by simp [rcStr]]
    exact semverParse_withPre A B ['0'] (rcStr ++ K) hA hB (by decide)
      (by simp [rcStr]) (rc_k_alnum hK) (rc_k_not_digits K)
      (not_mem_rc_digits hK (by decide) (by decide))
      (not_mem_rc_digits hK (by decide) (by decide))
  · rw [norm_3sec A B C hA hB hC]
    exact semverParse_noPre A B C hA hB hC
  · rw [norm_3sec_rc A B C K hA hB hC hK]
    rw [show (A ++ '.' :: (B ++ '.' :: C)) ++ ['-', 'r', 'c'] ++ K =
      A ++ '.' :: (B ++ '.' :: (C ++ '-' :: (rcStr ++ K))) by simp [rcStr]]
    exact semverParse_withPre A B C (rcStr ++ K) hA hB hC
      (by simp [rcStr]) (rc_k_alnum hK) (rc_k_not_digits K)
      (not_mem_rc_digits hK (by decide) (by decide))
      (not_mem_rc_digits hK (by decide) (by decide))
  · rw [norm_3sec_beta A B C K hA hB hC hK]
    rw [show (A ++ '.' :: (B ++ '.' :: C)) ++ ['-', 'b', 'e', 't', 'a'] ++ K =
      A ++ '.' :: (B ++ '.' :: (C ++ '-' :: (betaStr ++ K))) by simp [betaStr]]
    exact semverParse_withPre A B C (betaStr ++ K) hA hB hC
      (by simp [betaStr]) (beta_k_alnum hK) (beta_k_not_digits K)
      (not_mem_beta_digits hK (by decide) (by decide))
      (not_mem_beta_digits hK (by decide) (by decide))

/-- C3: the version listing is ordered by the version-aware comparator,
newest first; on the listing with tags 1.2.3, 1.10.0, 1.2.10 the returned
order is 1.10.0, 1.2.10, 1.2.3 (numeric, not lexicographic). -/
theorem listVersions_numeric_order :
    getAllGoVersionPure doc3 = ["1.10.0".toList, "1.2.10".toList, "1.2.3".toList] ∧
    goVersionLess (normalizeVersion ("1.10.0".toList)) (normalizeVersion ("1.2.10".toList)) =
      true ∧
    goVersionLess (normalizeVersion ("1.2.10".toList)) (normalizeVersion ("1.2.3".toList)) =
      true :=
  ⟨by decide, by decide, by decide⟩

/-- C4 (counterexample): the 1-section numeric tag `18446744073709551616`
(2^64) normalizes to the documented shape, but parsing the normalized
form fails (the semver library's 64-bit `ParseUint` overflows), so
parsing does not succeed for every 1-3 numeric-section tag. -/
theorem normalize_parse_cex :
    normalizeVersion ("18446744073709551616".toList) = "18446744073709551616.0.0".toList ∧
    semverParse (normalizeVersion ("18446744073709551616".toList)) = none :=
  ⟨by decide, by decide⟩

/-- Witness for the amended C4 theorem at the tag family 1, 1.2,
1.2beta4, 1.2rc4, 1.2.3, 1.2.3rc4, 1.2.3beta4. -/
theorem normalize_parse_sound_witness :
    normalizeVersion ['1'] = ['1'] ++ ['.', '0', '.', '0'] ∧
    semverParse (normalizeVersion ['1']) = some ⟨1, 0, 0, [], []⟩ :=
  (normalize_parse_sound ['1'] ['2'] ['3'] ['4'] (by decide) (by decide) (by decide)
    (by decide)).1

/-- C5 (counterexample): in a listing holding both `go1.2` and `go1.2.0`,
whose VersionTags share the normalized key `1.2.0`, the returned sequence
repeats `1.2.0` twice and the retained tag `1.2` is never returned. -/
theorem listVersions_collision_cex :
    scanVersions docDup = ["1.2".toList, "1.2.0".toList] ∧
    getAllGoVersionPure docDup = ["1.2.0".toList, "1.2.0".toList] ∧
    "1.2".toList ∉ getAllGoVersionPure docDup :=
  ⟨by decide, by decide, by decide⟩

/-- C5 (amended): when normalization is injective on the retained tags,
the returned sequence is a permutation of the original VersionTags (each
retained tag exactly once) and only original tags are ever returned. -/
theorem listVersions_perm_of_inj (doc : LC)
    (hinj : ∀ u ∈ scanVersions doc, ∀ v ∈ scanVersions doc,
      normalizeVersion u = normalizeVersion v → u = v) :
    List.Perm (getAllGoVersionPure doc) (scanVersions doc) ∧
    ∀ x ∈ getAllGoVersionPure doc, x ∈ scanVersions doc := by
  have hp := processTags_perm (scanVersions doc) hinj
  exact ⟨hp, fun x hx => hp.mem_iff.mp hx⟩

/-- Witness for the amended C5 theorem on the three-tag listing. -/
theorem listVersions_perm_of_inj_witness :
    List.Perm (getAllGoVersionPure doc3) (scanVersions doc3) ∧
    ∀ x ∈ getAllGoVersionPure doc3, x ∈ scanVersions doc3 :=
  listVersions_perm_of_inj doc3 (by decide)

/-- C6 (counterexample): the listing with tags `1.b` and `1.c` has two
retained tags whose normalized keys compare equal under the comparator
(both parse to the zero version), yet the returned order is reversed
rather than preserved. -/
theorem sort_tie_reversed_cex :
    scanVersions docTie = ["1.b".toList, "1.c".toList] ∧
    goVersionLess (normalizeVersion ("1.b".toList)) (normalizeVersion ("1.c".toList)) = true ∧
    goVersionLess (normalizeVersion ("1.c".toList)) (normalizeVersion ("1.b".toList)) = true ∧
    getAllGoVersionPure docTie = ["1.c".toList, "1.b".toList] :=
  ⟨by decide, by decide, by decide, by decide⟩

/-- C6 (amended): because placement is decided by a greater-or-equal
comparison, the stable sort swaps equal-comparing elements: a listing
with exactly two retained tags whose distinct normalized keys compare
equal in both directions is returned in reversed input order. -/
theorem sort_tie_reversed (doc t1 t2 : LC)
    (hscan : scanVersions doc = [t1, t2])
    (hne : normalizeVersion t1 ≠ normalizeVersion t2)
    (hge12 : goVersionLess (normalizeVersion t1) (normalizeVersion t2) = true)
    (hge21 : goVersionLess (normalizeVersion t2) (normalizeVersion t1) = true) :
    getAllGoVersionPure doc = [t2, t1] := by
  unfold getAllGoVersionPure
  rw [hscan]
  exact processTags_pair t1 t2 hne hge21

/-- Witness for the amended C6 theorem on the tie listing. -/
theorem sort_tie_reversed_witness :
    getAllGoVersionPure docTie = ["1.c".toList, "1.b".toList] :=
  sort_tie_reversed docTie ("1.b".toList) ("1.c".toList) (by decide) (by decide)
    (by decide) (by decide)

/-- C9 (counterexample): extracting an empty archive over a stale
destination succeeds, but the destination directory is not created: it
was removed before extraction and nothing recreates it. -/
theorem unpack_empty_dest_cex :
    (removeThenUnpack true [] ['/', 'd'] fsStale).1 = none ∧
    ((removeThenUnpack true [] ['/', 'd'] fsStale).2.dirs.contains ['/', 'd']) = false ∧
    (removeThenUnpack true [] ['/', 'd'] fsStale).2.dirs = [] :=
  ⟨by decide, by decide, by decide⟩

/-- C9 (amended): for an empty archive, extraction returns no error and
the filesystem ends in exactly the prior state minus the destination
subtree; in particular the destination directory does not exist
afterwards (it is removed, and never created). -/
theorem unpack_empty_dest (dest : LC) (fs : FSState) :
    (removeThenUnpack true [] dest fs).1 = none ∧
    (removeThenUnpack true [] dest fs).2 = removeAllFS dest fs ∧
    dest ∉ (removeThenUnpack true [] dest fs).2.dirs := by
  refine ⟨rfl, rfl, ?_⟩
  show dest ∉ (removeAllFS dest fs).dirs
  simp only [removeAllFS, List.mem_filter]
  rintro ⟨-, hpred⟩
  simp at hpred

/-- Witness for the C1 theorem on a concrete happy-path environment. -/
theorem downloadGoVersion_digest_ok_witness :
    (downloadGoVersionRun (fun bs => bs) envHappy).resultErr = none ∧
    (downloadGoVersionRun (fun bs => bs) envHappy).cacheFile =
      some envHappy.bodyChunks.flatten ∧
    (downloadGoVersionRun (fun bs => bs) envHappy).hashedBytes =
      envHappy.bodyChunks.flatten ∧
    (downloadGoVersionRun (fun bs => bs) envHappy).barCount =
      envHappy.bodyChunks.flatten.length ∧
    (downloadGoVersionRun (fun bs => bs) envHappy).computedSum =
      hexString ((fun bs => bs) envHappy.bodyChunks.flatten) :=
  downloadGoVersion_digest_ok (fun bs => bs) envHappy 200 rfl rfl (by decide) 3 (by decide)
    rfl rfl 200 rfl (by decide) (by decide) rfl

/-- Witness for the C2 theorem on a concrete mismatching environment. -/
theorem downloadGoVersion_mismatch_witness :
    (downloadGoVersionRun (fun bs => bs) envMismatch).resultErr =
      some (.checksumMismatch (hexString ((fun bs => bs) envMismatch.bodyChunks.flatten))
        ['x']) ∧
    (downloadGoVersionRun (fun bs => bs) envMismatch).cacheFile =
      some envMismatch.bodyChunks.flatten ∧
    (downloadGoVersionRun (fun bs => bs) envMismatch).destRemoved = false ∧
    (downloadGoVersionRun (fun bs => bs) envMismatch).unpackInvoked = false :=
  downloadGoVersion_mismatch (fun bs => bs) envMismatch 200 rfl rfl (by decide) 3 (by decide)
    rfl rfl 200 rfl (by decide) ['x'] rfl (by decide)

/-- Witness for the C7 theorem at cache ages 71 and 73 hours. -/
theorem getAllGoVersion_cache_boundary_witness :
    (getAllGoVersionRun envCache71).fetchedRemote = false ∧
    (getAllGoVersionRun envCache73).fetchedRemote = true :=
  ⟨((getAllGoVersion_cache_boundary envCache71).1 rfl (by decide)).1,
    ((getAllGoVersion_cache_boundary envCache73).2 (Or.inr (by decide))).1⟩

/-- Witness for the C8 theorem on the entries `go/bin/tool` and `other/x`. -/
theorem unpack_strips_go_root_witness :
    unpackEntryPath ("/dest".toList) (['g', 'o', '/'] ++ "bin/tool".toList) =
      fpJoin ("/dest".toList) ("bin/tool".toList) ∧
    unpackEntryPath ("/dest".toList) ("other/x".toList) =
      fpJoin ("/dest".toList) ("other/x".toList) :=
  ⟨(unpack_strips_go_root ("/dest".toList) ("bin/tool".toList) ("other/x".toList)).1,
    (unpack_strips_go_root ("/dest".toList) ("bin/tool".toList) ("other/x".toList)).2
      (by decide)⟩

/-- Witness for the C10 theorem: on the happy-path environment the
destination is removed, so the sidecar digest necessarily matched. -/
theorem downloadGoVersion_dest_frame_witness :
    envHappy.sidecarBody = some (hexString ((fun bs => bs) envHappy.bodyChunks.flatten)) :=
  (downloadGoVersion_dest_frame (fun bs => bs) envHappy).1 (Or.inl (by decide))

end InstallGo
